import Mathlib

/-!
Shallow embedding of the capability-graph core of `recursive_protocol.py`:
the `Capability` record, `CapabilityRegistry` (register / get / list_by_layer /
_max_lineage_depth), `PatternAnalyzer` (call extraction and
`find_common_patterns`) and `CapabilityGenerator` (sequence / parallel /
conditional composition, memoize / logged / safe modifiers and the analyzer
wrapper), together with theorems settling the specified properties.

Python dictionaries are modelled as insertion-ordered association lists with
overwrite-in-place update (`dictSet`), matching CPython's dict semantics.
Python runtime values are modelled by the inductive `Value`; a callable is a
function from a positional-argument list to `Except PyErr Value`, where
`PyErr` carries the exception message (`str(e)`) and class name
(`type(e).__name__`).
-/

/-- Model of a Python runtime value (the fragment the protocol manipulates). -/

inductive Value where
  | vint (n : Int)
  | vbool (b : Bool)
  | vstr (s : String)
  | vnone
  | vlist (items : List Value)
  | vdict (entries : List (String × Value))

/-- Python exception surfaced to the caller: `str(e)` and `type(e).__name__`. -/

structure PyErr where
  msg : String
  type : String

/-- A Python callable applied to positional arguments: it either returns a
value or raises. -/

abbrev PyFun := List Value → Except PyErr Value

/-- Python truthiness (`bool(v)`) for the modelled value fragment. -/

def truthy : Value → Bool
  | .vint n => n != 0
  | .vbool b => b
  | .vstr s => s ≠ ""
  | .vnone => false
  | .vlist items => !items.isEmpty
  | .vdict entries => !entries.isEmpty

/-- Model of `repr(v)` for the value fragment (string escaping is not modelled:
the embedded strings contain no quotes).  Used only to build `memoize`
cache keys, mirroring `str(args) + str(kwargs)`. -/

def pyRepr : Value → String
  | .vint n => toString n
  | .vbool b => if b then "True" else "False"
  | .vstr s => "'" ++ s ++ "'"
  | .vnone => "None"
  | .vlist items =>
      "[" ++ String.intercalate ", " (items.attach.map fun x => pyRepr x.1) ++ "]"
  | .vdict entries =>
      "\x7b" ++ String.intercalate ", "
        (entries.attach.map fun x => "'" ++ x.1.1 ++ "': " ++ pyRepr x.1.2) ++ "\x7d"
decreasing_by
  · have h := List.sizeOf_lt_of_mem x.2
    simp only [Value.vlist.sizeOf_spec]
    omega
  · have h := List.sizeOf_lt_of_mem x.2
    have h2 : sizeOf x.1.2 < sizeOf x.1 := by
      cases x.1 with | mk a b => simp
    simp only [Value.vdict.sizeOf_spec]
    omega

/-- Model of `str(args)` for a Python tuple of positional arguments. -/

def strOfArgs (args : List Value) : String :=
  match args with
  | [a] => "(" ++ pyRepr a ++ ",)"
  | _ => "(" ++ String.intercalate ", " (args.map pyRepr) ++ ")"

/-- Lookup in an insertion-ordered Python dict (assoc-list model). -/

def dictGet {α : Type} (k : String) : List (String × α) → Option α
  | [] => none
  | (k1, v) :: rest => if k1 = k then some v else dictGet k rest

/-- Assignment `d[k] = v` on an insertion-ordered Python dict: overwrite in place if the
key exists, else append at the end. -/

def dictSet {α : Type} (k : String) (v : α) : List (String × α) → List (String × α)
  | [] => [(k, v)]
  | (k1, v1) :: rest => if k1 = k then (k, v) :: rest else (k1, v1) :: dictSet k v rest

/-- Abstract syntax of the call structure of a capability's parsed source:
exactly the shape `_extract_function_calls` depends on.  `callName f sub`
is an `ast.Call` whose `func` is an `ast.Name` (collects `func.id`);
`callAttr a sub` is an `ast.Call` whose `func` is an `ast.Attribute`
(collects `func.attr`); `seq`/`leaf` give the surrounding tree shape. -/

inductive PyTree where
  | leaf
  | callName (f : String) (sub : PyTree)
  | callAttr (a : String) (sub : PyTree)
  | seq (l r : PyTree)

/-- Embedding of `PatternAnalyzer._extract_function_calls`: every `ast.Call` node in the
walk contributes one entry (`func.id` for name calls, `func.attr` for
attribute calls), duplicates included. -/

def extract_function_calls : PyTree → List String
  | .leaf => []
  | .callName f sub => f :: extract_function_calls sub
  | .callAttr a sub => a :: extract_function_calls sub
  | .seq l r => extract_function_calls l ++ extract_function_calls r

/-- The `Capability` dataclass.  `created_by` is the provenance string used as
the lineage key.  `tree` is the parse of `cap.source`: `none` when
`ast.parse` fails (generated capabilities have indented nested-function
source, so their parse fails and `analyze_code_patterns` skips them —
its bare `except: continue`).  `created_at` (informational) and the inspect
based `source`/`signature` reflection are not modelled. -/

structure Capability where
  name : String
  func : PyFun
  layer : Nat
  metadata : List (String × Value) := []
  created_by : Option String := none
  tree : Option PyTree := none

/-- Embedding of `CapabilityRegistry.__init__`: the `capabilities` dict and the
provenance → children `lineage` dict (the unused `patterns` dict is
omitted). -/

structure CapabilityRegistry where
  capabilities : List (String × Capability) := []
  lineage : List (String × List String) := []

/-- Embedding of `CapabilityRegistry.register`: store under the name
(overwriting), and if `created_by` is truthy append the name to
`lineage[created_by]`, creating the list if absent.  The Python guard
`if capability.created_by:` treats both `None` and the empty string as
absent, so an empty-string provenance also skips the lineage update. -/

def register (r : CapabilityRegistry) (c : Capability) : CapabilityRegistry :=
  let caps := dictSet c.name c r.capabilities
  match c.created_by with
  | none => { r with capabilities := caps }
  | some p =>
      if p = "" then { r with capabilities := caps }
      else
        { capabilities := caps
          lineage := dictSet p ((dictGet p r.lineage).getD [] ++ [c.name]) r.lineage }

/-- Embedding of `CapabilityRegistry.get`. -/

def CapabilityRegistry.get (r : CapabilityRegistry) (name : String) : Option Capability :=
  dictGet name r.capabilities

/-- Embedding of `CapabilityRegistry.list_by_layer`. -/

def list_by_layer (r : CapabilityRegistry) (layer : Nat) : List Capability :=
  (r.capabilities.map Prod.snd).filter (fun c => c.layer = layer)

/-- The inner `depth(name, visited)` of `_max_lineage_depth`, with explicit
fuel standing in for the recursion (the per-path `visited` set bounds the
real recursion depth by the number of lineage keys, so any fuel above that
bound computes the same value). -/

def lineageDepth (lineage : List (String × List String)) :
    Nat → String → List String → Nat
  | 0, _, _ => 0
  | fuel + 1, name, visited =>
      if name ∈ visited then 0
      else
        match dictGet name lineage with
        | none => 0
        | some children =>
            match children.map (fun c => lineageDepth lineage fuel c (name :: visited)) with
            | [] => 0
            | d :: ds => 1 + (ds.foldl max d)

/-- Embedding of `CapabilityRegistry._max_lineage_depth`:
`max([depth(name, set()) for name in capabilities] or [0])`. -/

def max_lineage_depth (r : CapabilityRegistry) : Nat :=
  (r.capabilities.map
    (fun nc => lineageDepth r.lineage (r.lineage.length + 1) nc.1 [])).foldl max 0

/-- One entry of `PatternAnalyzer.analyze_code_patterns` (only the fields
`find_common_patterns` consumes: the capability name and its extracted
call list; `imports`/`complexity`/`has_recursion` are not read there). -/

structure CodePattern where
  capability : String
  functions_called : List String

/-- Embedding of `PatternAnalyzer.analyze_code_patterns`: parse each capability's source
and extract its calls; a capability whose source does not parse
(`tree = none`) is skipped by the bare `except: continue`. -/

def analyze_code_patterns (caps : List Capability) : List CodePattern :=
  caps.filterMap fun cap =>
    cap.tree.map fun t =>
      { capability := cap.name, functions_called := extract_function_calls t }

/-- The inner loop of `find_common_patterns`: for one pattern record, append
the capability name to `common[func_call]` once per extracted call. -/

def addPatternCalls (acc : List (String × List String)) (p : CodePattern) :
    List (String × List String) :=
  p.functions_called.foldl
    (fun acc2 fc => dictSet fc ((dictGet fc acc2).getD [] ++ [p.capability]) acc2) acc

/-- Embedding of `PatternAnalyzer.find_common_patterns`: group capability names by invoked
symbol (one entry per call occurrence), then keep only buckets with more
than one entry. -/

def find_common_patterns (r : CapabilityRegistry) : List (String × List String) :=
  ((analyze_code_patterns (r.capabilities.map Prod.snd)).foldl addPatternCalls []).filter
    (fun kv => kv.2.length > 1)

/-- Embedding of `CapabilityGenerator.generate_from_composition`.  The three modes build
the composed callable exactly as the source closures do: `sequence` feeds
A's single result to B as its sole argument; `parallel` calls A then B on
the same arguments and builds the dict literal in that order; `conditional`
calls B on the original arguments only when A's result is truthy, otherwise
returns A's result.  An exception from any inner call propagates. -/

def generate_from_composition (r : CapabilityRegistry)
    (cap1_name cap2_name : String) (operation : String) : Option Capability :=
  match r.get cap1_name, r.get cap2_name with
  | some cap1, some cap2 =>
      let new_name := cap1_name ++ "_" ++ operation ++ "_" ++ cap2_name
      let new_layer := max cap1.layer cap2.layer + 1
      let body : Option PyFun :=
        if operation = "sequence" then
          some (fun args => do
            let result1 ← cap1.func args
            cap2.func [result1])
        else if operation = "parallel" then
          some (fun args => do
            let r1 ← cap1.func args
            let r2 ← cap2.func args
            pure (.vdict (dictSet cap2_name r2 (dictSet cap1_name r1 []))))
        else if operation = "conditional" then
          some (fun args => do
            let result1 ← cap1.func args
            if truthy result1 then cap2.func args else pure result1)
        else none
      body.map fun f =>
        { name := new_name
          func := f
          layer := new_layer
          created_by := some ("compose(" ++ cap1_name ++ ", " ++ cap2_name ++ ")")
          metadata := [("composition", .vstr operation),
                       ("parents", .vlist [.vstr cap1_name, .vstr cap2_name])] }
  | _, _ => none

/-- Embedding of `CapabilityGenerator.generate_analyzer_for`.  The wrapper's runtime
introspection fields (`execution_time` wall clock, `args`/`kwargs` echo,
`analysis` via `inspect`) are outside the value model and are rendered as
`vnone` placeholders; the `target` and `result` fields are modelled
exactly. -/

def generate_analyzer_for (r : CapabilityRegistry) (capability_name : String) :
    Option Capability :=
  match r.get capability_name with
  | none => none
  | some target =>
      some
        { name := "analyze_" ++ capability_name
          func := fun args => do
            let result ← target.func args
            pure (.vdict [("target", .vstr capability_name),
                          ("result", result),
                          ("execution_time", .vnone),
                          ("args", .vlist args),
                          ("kwargs", .vdict []),
                          ("analysis", .vnone)])
          layer := target.layer + 1
          created_by := some ("meta_analyze(" ++ capability_name ++ ")")
          metadata := [("meta_type", .vstr "analyzer"),
                       ("target", .vstr capability_name)] }

/-- One call of the closure `memoized_func` built by the `memoize` branch of
`generate_modifier_for`, with the mutable `cache` dict threaded explicitly
and the number of underlying invocations (0 or 1) surfaced as the counting
side effect.  The key is `str(args) + str(kwargs)`; calls are modelled with
positional arguments only, so `str(kwargs)` is the constant rendering of the
empty dict.  A raising underlying call stores nothing (in the source the
assignment `cache[key] = target.func(...)` is never reached). -/

def memoStep (target : PyFun) (cache : List (String × Value)) (args : List Value) :
    Except PyErr Value × List (String × Value) × Nat :=
  let key := strOfArgs args ++ "\x7b\x7d"
  match dictGet key cache with
  | some v => (.ok v, cache, 0)
  | none =>
      match target args with
      | .ok v => (.ok v, dictSet key v cache, 1)
      | .error e => (.error e, cache, 1)

/-- Embedding of `CapabilityGenerator.generate_modifier_for`.  The `safe` branch converts
an exception into `{'error': str(e), 'type': type(e).__name__}`; the
`logged` branch returns the target's result unchanged (its `print` side
effects are outside the value model); the `memoize` branch's closure owns a
mutable cache, modelled by `memoStep` above — the `func` stored in the
record is its behavior on the fresh (empty) cache the closure starts with. -/

def generate_modifier_for (r : CapabilityRegistry)
    (capability_name : String) (modification_type : String) : Option Capability :=
  match r.get capability_name with
  | none => none
  | some target =>
      let new_name := capability_name ++ "_" ++ modification_type
      let body : Option PyFun :=
        if modification_type = "memoize" then
          some (fun args => (memoStep target.func [] args).1)
        else if modification_type = "logged" then
          some (fun args => target.func args)
        else if modification_type = "safe" then
          some (fun args =>
            match target.func args with
            | .ok v => .ok v
            | .error e => .ok (.vdict [("error", .vstr e.msg), ("type", .vstr e.type)]))
        else none
      body.map fun f =>
        { name := new_name
          func := f
          layer := target.layer + 1
          created_by := some ("modify(" ++ capability_name ++ ", " ++ modification_type ++ ")")
          metadata := [("meta_type", .vstr "modifier"),
                       ("modification", .vstr modification_type),
                       ("target", .vstr capability_name)] }

/-- Capability `add(a, b) = a + b`, a layer-0 cultivated capability (its parsed source
has no call nodes). -/

def addCap : Capability :=
  { name := "add"
    func := fun args =>
      match args with
      | [.vint a, .vint b] => .ok (.vint (a + b))
      | _ => .error { msg := "unsupported operand", type := "TypeError" }
    layer := 0
    tree := some .leaf }

/-- Capability `is_even(n) = n % 2 == 0`, a layer-0 cultivated capability. -/

def isEvenCap : Capability :=
  { name := "is_even"
    func := fun args =>
      match args with
      | [.vint n] => .ok (.vbool (n % 2 == 0))
      | _ => .error { msg := "unsupported operand", type := "TypeError" }
    layer := 0
    tree := some .leaf }

/-- Capability `multiply(a, b) = a * b`, a layer-0 cultivated capability. -/

def multiplyCap : Capability :=
  { name := "multiply"
    func := fun args =>
      match args with
      | [.vint a, .vint b] => .ok (.vint (a * b))
      | _ => .error { msg := "unsupported operand", type := "TypeError" }
    layer := 0
    tree := some .leaf }

/-- The registry obtained by cultivating `add`, `is_even` and `multiply`. -/

def demoRegistry : CapabilityRegistry :=
  register (register (register {} addCap) isEvenCap) multiplyCap

/-- A capability whose executable always raises `RuntimeError("boom")`. -/

def boomCap : Capability :=
  { name := "boom"
    func := fun _ => .error { msg := "boom", type := "RuntimeError" }
    layer := 0
    tree := some .leaf }

/-- Registry holding only the always-raising capability. -/

def boomRegistry : CapabilityRegistry := register {} boomCap

/-- The capability produced by `compose(add, is_even, "sequence")` over
`demoRegistry`. -/

def addSeqIsEven : Capability :=
  { name := "add" ++ "_" ++ "sequence" ++ "_" ++ "is_even"
    func := fun args => do
      let result1 ← addCap.func args
      isEvenCap.func [result1]
    layer := max addCap.layer isEvenCap.layer + 1
    created_by := some ("compose(" ++ "add" ++ ", " ++ "is_even" ++ ")")
    metadata := [("composition", .vstr "sequence"),
                 ("parents", .vlist [.vstr "add", .vstr "is_even"])] }

/-- The capability produced by `compose(add, multiply, "conditional")` over
`demoRegistry`. -/

def addCondMul : Capability :=
  { name := "add" ++ "_" ++ "conditional" ++ "_" ++ "multiply"
    func := fun args => do
      let result1 ← addCap.func args
      if truthy result1 then multiplyCap.func args else pure result1
    layer := max addCap.layer multiplyCap.layer + 1
    created_by := some ("compose(" ++ "add" ++ ", " ++ "multiply" ++ ")")
    metadata := [("composition", .vstr "conditional"),
                 ("parents", .vlist [.vstr "add", .vstr "multiply"])] }

/-- The capability produced by `compose(add, multiply, "parallel")` over
`demoRegistry`. -/

def addParMul : Capability :=
  { name := "add" ++ "_" ++ "parallel" ++ "_" ++ "multiply"
    func := fun args => do
      let r1 ← addCap.func args
      let r2 ← multiplyCap.func args
      pure (.vdict (dictSet "multiply" r2 (dictSet "add" r1 [])))
    layer := max addCap.layer multiplyCap.layer + 1
    created_by := some ("compose(" ++ "add" ++ ", " ++ "multiply" ++ ")")
    metadata := [("composition", .vstr "parallel"),
                 ("parents", .vlist [.vstr "add", .vstr "multiply"])] }

/-- The safe-wrapped always-raising capability, as produced by
`generate_modifier_for(boomRegistry, "boom", "safe")`. -/

def boomSafe : Capability :=
  { name := "boom" ++ "_" ++ "safe"
    func := fun args =>
      match boomCap.func args with
      | .ok v => .ok v
      | .error e => .ok (.vdict [("error", .vstr e.msg), ("type", .vstr e.type)])
    layer := boomCap.layer + 1
    created_by := some ("modify(" ++ "boom" ++ ", " ++ "safe" ++ ")")
    metadata := [("meta_type", .vstr "modifier"),
                 ("modification", .vstr "safe"),
                 ("target", .vstr "boom")] }

/-- The registry holding just the two cultivated capabilities `add` and
`is_even` (the starting state of the lineage-depth run). -/

def rAB : CapabilityRegistry := register (register {} addCap) isEvenCap

/-- The capability produced by the second compose of the lineage-depth run:
`compose(add_sequence_is_even, add, "sequence")`, taking the first composite
as an input. -/

def seqSeqCap : Capability :=
  { name := "add_sequence_is_even" ++ "_" ++ "sequence" ++ "_" ++ "add"
    func := fun args => do
      let result1 ← addSeqIsEven.func args
      addCap.func [result1]
    layer := max addSeqIsEven.layer addCap.layer + 1
    created_by := some ("compose(" ++ "add_sequence_is_even" ++ ", " ++ "add" ++ ")")
    metadata := [("composition", .vstr "sequence"),
                 ("parents", .vlist [.vstr "add_sequence_is_even", .vstr "add"])] }

/-- The bucket `find_common_patterns` builds for symbol `s`: one occurrence of
the capability's name per call site of `s` in that capability, in registry
order. -/

def occList (patterns : List CodePattern) (s : String) : List String :=
  (patterns.map fun p => List.replicate (p.functions_called.count s) p.capability).flatten

/-- Total number of call sites of symbol `s` across all capabilities whose
source parses. -/

def callOccurrences (r : CapabilityRegistry) (s : String) : Nat :=
  ((analyze_code_patterns (r.capabilities.map Prod.snd)).map
    (fun p => p.functions_called.count s)).sum

/-- The capabilities (by name) that invoke symbol `s` at least once. -/

def invokingCaps (r : CapabilityRegistry) (s : String) : List String :=
  ((analyze_code_patterns (r.capabilities.map Prod.snd)).filter
    (fun p => s ∈ p.functions_called)).map CodePattern.capability

/-- Capability `pair_sum(x, y) = len(x) + len(y)`: a single cultivated capability whose
source calls the symbol `len` at two call sites. -/

def pairSumCap : Capability :=
  { name := "pair_sum"
    func := fun args =>
      match args with
      | [.vlist xs, .vlist ys] => .ok (.vint (xs.length + ys.length))
      | _ => .error { msg := "unsupported operand", type := "TypeError" }
    layer := 0
    tree := some (.seq (.callName "len" .leaf) (.callName "len" .leaf)) }

/-- Registry containing only `pair_sum`. -/

def pairSumRegistry : CapabilityRegistry := register {} pairSumCap

/-- Witness for `find_common_patterns_occurrence_based` on the concrete
single-capability registry. -/

theorem dictGet_dictSet_self {α : Type} (k : String) (v : α) (l : List (String × α)) :
    dictGet k (dictSet k v l) = some v := by
  induction l with
  | nil => simp [dictGet, dictSet]
  | cons hd tl ih =>
      obtain ⟨k1, v1⟩ := hd
      by_cases h : k1 = k
      · simp [dictGet, dictSet, h]
      · simp [dictGet, dictSet, h, ih]

theorem dictGet_dictSet_ne {α : Type} {k k1 : String} (h : k1 ≠ k) (v : α)
    (l : List (String × α)) : dictGet k (dictSet k1 v l) = dictGet k l := by
  induction l with
  | nil => simp [dictGet, dictSet, h]
  | cons hd tl ih =>
      obtain ⟨k2, v2⟩ := hd
      by_cases h2 : k2 = k1
      · subst h2
        simp [dictGet, dictSet, h]
      · by_cases h3 : k2 = k
        · simp [dictGet, dictSet, h2, h3, Ne.symm h]
        · simp [dictGet, dictSet, h2, h3, ih]

theorem length_dictSet_of_mem {α : Type} {k : String} {l : List (String × α)}
    (h : (dictGet k l).isSome) (v : α) : (dictSet k v l).length = l.length := by
  induction l with
  | nil => simp [dictGet] at h
  | cons hd tl ih =>
      obtain ⟨k1, v1⟩ := hd
      by_cases h1 : k1 = k
      · simp [dictSet, h1]
      · simp only [dictGet, h1, if_neg h1] at h
        simp [dictSet, h1, ih h]

theorem append_right_paren_ne_empty (s : String) : s ++ ")" ≠ "" := by
  intro h
  have hlen := congrArg String.length h
  rw [String.length_append] at hlen
  have h1 : (")" : String).length = 1 := rfl
  rw [h1] at hlen
  simp at hlen

theorem gen_sequence_char {r : CapabilityRegistry} {A B : String} {a b : Capability}
    (ha : r.get A = some a) (hb : r.get B = some b) :
    generate_from_composition r A B "sequence" = some
      { name := A ++ "_" ++ "sequence" ++ "_" ++ B
        func := fun args => do
          let result1 ← a.func args
          b.func [result1]
        layer := max a.layer b.layer + 1
        created_by := some ("compose(" ++ A ++ ", " ++ B ++ ")")
        metadata := [("composition", .vstr "sequence"),
                     ("parents", .vlist [.vstr A, .vstr B])] } := by
  unfold generate_from_composition
  rw [ha, hb]
  rfl

theorem gen_parallel_char {r : CapabilityRegistry} {A B : String} {a b : Capability}
    (ha : r.get A = some a) (hb : r.get B = some b) :
    generate_from_composition r A B "parallel" = some
      { name := A ++ "_" ++ "parallel" ++ "_" ++ B
        func := fun args => do
          let r1 ← a.func args
          let r2 ← b.func args
          pure (.vdict (dictSet B r2 (dictSet A r1 [])))
        layer := max a.layer b.layer + 1
        created_by := some ("compose(" ++ A ++ ", " ++ B ++ ")")
        metadata := [("composition", .vstr "parallel"),
                     ("parents", .vlist [.vstr A, .vstr B])] } := by
  unfold generate_from_composition
  rw [ha, hb]
  rfl

theorem gen_conditional_char {r : CapabilityRegistry} {A B : String} {a b : Capability}
    (ha : r.get A = some a) (hb : r.get B = some b) :
    generate_from_composition r A B "conditional" = some
      { name := A ++ "_" ++ "conditional" ++ "_" ++ B
        func := fun args => do
          let result1 ← a.func args
          if truthy result1 then b.func args else pure result1
        layer := max a.layer b.layer + 1
        created_by := some ("compose(" ++ A ++ ", " ++ B ++ ")")
        metadata := [("composition", .vstr "conditional"),
                     ("parents", .vlist [.vstr A, .vstr B])] } := by
  unfold generate_from_composition
  rw [ha, hb]
  rfl

theorem gen_safe_char {r : CapabilityRegistry} {X : String} {t : Capability}
    (ht : r.get X = some t) :
    generate_modifier_for r X "safe" = some
      { name := X ++ "_" ++ "safe"
        func := fun args =>
          match t.func args with
          | .ok v => .ok v
          | .error e => .ok (.vdict [("error", .vstr e.msg), ("type", .vstr e.type)])
        layer := t.layer + 1
        created_by := some ("modify(" ++ X ++ ", " ++ "safe" ++ ")")
        metadata := [("meta_type", .vstr "modifier"),
                     ("modification", .vstr "safe"),
                     ("target", .vstr X)] } := by
  unfold generate_modifier_for
  rw [ht]
  rfl

theorem gen_memoize_char {r : CapabilityRegistry} {X : String} {t : Capability}
    (ht : r.get X = some t) :
    generate_modifier_for r X "memoize" = some
      { name := X ++ "_" ++ "memoize"
        func := fun args => (memoStep t.func [] args).1
        layer := t.layer + 1
        created_by := some ("modify(" ++ X ++ ", " ++ "memoize" ++ ")")
        metadata := [("meta_type", .vstr "modifier"),
                     ("modification", .vstr "memoize"),
                     ("target", .vstr X)] } := by
  unfold generate_modifier_for
  rw [ht]
  rfl

theorem gen_analyzer_char {r : CapabilityRegistry} {X : String} {t : Capability}
    (ht : r.get X = some t) :
    generate_analyzer_for r X = some
      { name := "analyze_" ++ X
        func := fun args => do
          let result ← t.func args
          pure (.vdict [("target", .vstr X), ("result", result),
                        ("execution_time", .vnone), ("args", .vlist args),
                        ("kwargs", .vdict []), ("analysis", .vnone)])
        layer := t.layer + 1
        created_by := some ("meta_analyze(" ++ X ++ ")")
        metadata := [("meta_type", .vstr "analyzer"), ("target", .vstr X)] } := by
  unfold generate_analyzer_for
  rw [ht]

theorem gen_logged_char {r : CapabilityRegistry} {X : String} {t : Capability}
    (ht : r.get X = some t) :
    generate_modifier_for r X "logged" = some
      { name := X ++ "_" ++ "logged"
        func := fun args => t.func args
        layer := t.layer + 1
        created_by := some ("modify(" ++ X ++ ", " ++ "logged" ++ ")")
        metadata := [("meta_type", .vstr "modifier"),
                     ("modification", .vstr "logged"),
                     ("target", .vstr X)] } := by
  unfold generate_modifier_for
  rw [ht]
  rfl

/-- C4: for every successful `compose(A, B, mode)` over capabilities present in
the registry, the result's layer is `max(layer(A), layer(B)) + 1`, its name is
the concatenation `A_mode_B`, and after registration the lineage map lists its
name under the provenance key `compose(A, B)`. -/
theorem compose_layer_name_lineage (r : CapabilityRegistry) (A B mode : String)
    (a b : Capability) (ha : r.get A = some a) (hb : r.get B = some b)
    (hmode : mode = "sequence" ∨ mode = "parallel" ∨ mode = "conditional") :
    ∀ c, generate_from_composition r A B mode = some c →
      c.layer = max a.layer b.layer + 1 ∧
      c.name = A ++ "_" ++ mode ++ "_" ++ B ∧
      c.created_by = some ("compose(" ++ A ++ ", " ++ B ++ ")") ∧
      c.name ∈ (dictGet ("compose(" ++ A ++ ", " ++ B ++ ")")
        (register r c).lineage).getD [] := by
  have hreg : ∀ c : Capability,
      c.created_by = some ("compose(" ++ A ++ ", " ++ B ++ ")") →
      c.name ∈ (dictGet ("compose(" ++ A ++ ", " ++ B ++ ")")
        (register r c).lineage).getD [] := by
    intro c hc
    simp only [register, hc]
    rw [if_neg (append_right_paren_ne_empty _)]
    simp [dictGet_dictSet_self]
  intro c hc
  rcases hmode with h | h | h <;> subst h
  · rw [gen_sequence_char ha hb] at hc
    obtain rfl := (Option.some.inj hc).symm
    exact ⟨rfl, rfl, rfl, hreg _ rfl⟩
  · rw [gen_parallel_char ha hb] at hc
    obtain rfl := (Option.some.inj hc).symm
    exact ⟨rfl, rfl, rfl, hreg _ rfl⟩
  · rw [gen_conditional_char ha hb] at hc
    obtain rfl := (Option.some.inj hc).symm
    exact ⟨rfl, rfl, rfl, hreg _ rfl⟩

/-- Witness for `compose_layer_name_lineage` at `compose(add, is_even,
"sequence")` over `demoRegistry`. -/
theorem compose_layer_name_lineage_witness :
    addSeqIsEven.layer = max addCap.layer isEvenCap.layer + 1 ∧
    addSeqIsEven.name = "add" ++ "_" ++ "sequence" ++ "_" ++ "is_even" ∧
    addSeqIsEven.created_by = some ("compose(" ++ "add" ++ ", " ++ "is_even" ++ ")") ∧
    addSeqIsEven.name ∈ (dictGet ("compose(" ++ "add" ++ ", " ++ "is_even" ++ ")")
      (register demoRegistry addSeqIsEven).lineage).getD [] :=
  compose_layer_name_lineage demoRegistry "add" "is_even" "sequence" addCap isEvenCap
    rfl rfl (Or.inl rfl) addSeqIsEven rfl

/-- C5: every generator operation (composition in any mode, any modifier kind,
the analyzer wrapper) yields a capability whose layer strictly exceeds the
layer of every capability it was derived from. -/
theorem generated_layer_strictly_increases (r : CapabilityRegistry)
    (A B X mode kind : String) (a b t : Capability)
    (ha : r.get A = some a) (hb : r.get B = some b) (ht : r.get X = some t) :
    (∀ c, generate_from_composition r A B mode = some c →
        a.layer < c.layer ∧ b.layer < c.layer) ∧
    (∀ c, generate_analyzer_for r X = some c → t.layer < c.layer) ∧
    (∀ c, generate_modifier_for r X kind = some c → t.layer < c.layer) := by
  refine ⟨?_, ?_, ?_⟩
  · intro c hc
    by_cases h1 : mode = "sequence"
    · subst h1
      rw [gen_sequence_char ha hb] at hc
      obtain rfl := (Option.some.inj hc).symm
      exact ⟨Nat.lt_succ_of_le (le_max_left _ _), Nat.lt_succ_of_le (le_max_right _ _)⟩
    · by_cases h2 : mode = "parallel"
      · subst h2
        rw [gen_parallel_char ha hb] at hc
        obtain rfl := (Option.some.inj hc).symm
        exact ⟨Nat.lt_succ_of_le (le_max_left _ _), Nat.lt_succ_of_le (le_max_right _ _)⟩
      · by_cases h3 : mode = "conditional"
        · subst h3
          rw [gen_conditional_char ha hb] at hc
          obtain rfl := (Option.some.inj hc).symm
          exact ⟨Nat.lt_succ_of_le (le_max_left _ _), Nat.lt_succ_of_le (le_max_right _ _)⟩
        · exfalso
          simp only [generate_from_composition, ha, hb, if_neg h1, if_neg h2, if_neg h3] at hc
          simp at hc
  · intro c hc
    rw [gen_analyzer_char ht] at hc
    obtain rfl := (Option.some.inj hc).symm
    exact Nat.lt_succ_self _
  · intro c hc
    by_cases h1 : kind = "memoize"
    · subst h1
      rw [gen_memoize_char ht] at hc
      obtain rfl := (Option.some.inj hc).symm
      exact Nat.lt_succ_self _
    · by_cases h2 : kind = "logged"
      · subst h2
        rw [gen_logged_char ht] at hc
        obtain rfl := (Option.some.inj hc).symm
        exact Nat.lt_succ_self _
      · by_cases h3 : kind = "safe"
        · subst h3
          rw [gen_safe_char ht] at hc
          obtain rfl := (Option.some.inj hc).symm
          exact Nat.lt_succ_self _
        · exfalso
          simp only [generate_modifier_for, ht, if_neg h1, if_neg h2, if_neg h3] at hc
          simp at hc

/-- Witness for `generated_layer_strictly_increases`: the sequence composite
of `add` and `is_even` sits strictly above both parents. -/
theorem generated_layer_strictly_increases_witness :
    addCap.layer < addSeqIsEven.layer ∧ isEvenCap.layer < addSeqIsEven.layer :=
  (generated_layer_strictly_increases demoRegistry "add" "is_even" "multiply"
    "sequence" "safe" addCap isEvenCap multiplyCap rfl rfl rfl).1 addSeqIsEven rfl

/-- C6: a sequence composite invokes A on the caller's arguments and then
invokes B with A's single result as B's sole argument; for `add` then
`is_even`, the composite yields `True` on `(5, 3)` and `False` on `(4, 3)`. -/
theorem sequence_composition_semantics (r : CapabilityRegistry) (A B : String)
    (a b : Capability) (ha : r.get A = some a) (hb : r.get B = some b) :
    (∀ c, generate_from_composition r A B "sequence" = some c →
       ∀ args, c.func args = (a.func args).bind fun result1 => b.func [result1]) ∧
    (∀ c, generate_from_composition demoRegistry "add" "is_even" "sequence" = some c →
       c.func [.vint 5, .vint 3] = .ok (.vbool true) ∧
       c.func [.vint 4, .vint 3] = .ok (.vbool false)) := by
  constructor
  · intro c hc args
    rw [gen_sequence_char ha hb] at hc
    obtain rfl := (Option.some.inj hc).symm
    rfl
  · intro c hc
    rw [gen_sequence_char (rfl : demoRegistry.get "add" = some addCap)
      (rfl : demoRegistry.get "is_even" = some isEvenCap)] at hc
    obtain rfl := (Option.some.inj hc).symm
    exact ⟨rfl, rfl⟩

/-- Witness for `sequence_composition_semantics`: the concrete composite
evaluated at `(5, 3)` and `(4, 3)`. -/
theorem sequence_composition_semantics_witness :
    addSeqIsEven.func [Value.vint 5, Value.vint 3] = .ok (.vbool true) ∧
    addSeqIsEven.func [Value.vint 4, Value.vint 3] = .ok (.vbool false) :=
  (sequence_composition_semantics demoRegistry "add" "is_even" addCap isEvenCap
    rfl rfl).2 addSeqIsEven rfl

/-- C7: a conditional composite first invokes A on the caller's arguments;
when A's result is truthy it invokes B on the original arguments and returns
B's result, otherwise it returns A's result unchanged without invoking B. -/
theorem conditional_composition_semantics (r : CapabilityRegistry) (A B : String)
    (a b : Capability) (ha : r.get A = some a) (hb : r.get B = some b) :
    ∀ c, generate_from_composition r A B "conditional" = some c →
      ∀ args,
        (∀ v, a.func args = .ok v → truthy v = true → c.func args = b.func args) ∧
        (∀ v, a.func args = .ok v → truthy v = false → c.func args = .ok v) ∧
        (∀ e, a.func args = .error e → c.func args = .error e) := by
  intro c hc args
  rw [gen_conditional_char ha hb] at hc
  obtain rfl := (Option.some.inj hc).symm
  refine ⟨?_, ?_, ?_⟩
  · intro v hv htr
    dsimp only
    rw [hv]
    show (if truthy v = true then b.func args else pure v) = b.func args
    rw [htr]
    rfl
  · intro v hv htr
    dsimp only
    rw [hv]
    show (if truthy v = true then b.func args else pure v) = Except.ok v
    rw [htr]
    rfl
  · intro e he
    dsimp only
    rw [he]
    rfl

/-- Witness for `conditional_composition_semantics`: `add(2, 3) = 5` is truthy
so the composite returns `multiply(2, 3)`; `add(0, 0) = 0` is falsy so the
composite returns `0` unchanged. -/
theorem conditional_composition_semantics_witness :
    addCondMul.func [Value.vint 2, Value.vint 3] =
      multiplyCap.func [Value.vint 2, Value.vint 3] ∧
    addCondMul.func [Value.vint 0, Value.vint 0] = .ok (.vint 0) :=
  ⟨(conditional_composition_semantics demoRegistry "add" "multiply" addCap multiplyCap
      rfl rfl addCondMul rfl [Value.vint 2, Value.vint 3]).1 (Value.vint 5) rfl rfl,
   (conditional_composition_semantics demoRegistry "add" "multiply" addCap multiplyCap
      rfl rfl addCondMul rfl [Value.vint 0, Value.vint 0]).2.1 (Value.vint 0) rfl rfl⟩

/-- C8: a parallel composite invokes A and then B on the same arguments and
returns the dict mapping each name to its result; an exception from either
invocation propagates (A's pre-empting B's); `add` parallel `multiply` on
`(4, 5)` yields the dict `add ↦ 9, multiply ↦ 20`. -/
theorem parallel_composition_semantics (r : CapabilityRegistry) (A B : String)
    (a b : Capability) (ha : r.get A = some a) (hb : r.get B = some b) :
    (∀ c, generate_from_composition r A B "parallel" = some c → ∀ args,
       (∀ v1 v2, a.func args = .ok v1 → b.func args = .ok v2 →
          c.func args = .ok (.vdict (dictSet B v2 (dictSet A v1 [])))) ∧
       (∀ e, a.func args = .error e → c.func args = .error e) ∧
       (∀ v1 e, a.func args = .ok v1 → b.func args = .error e →
          c.func args = .error e)) ∧
    (∀ c, generate_from_composition demoRegistry "add" "multiply" "parallel" = some c →
       c.func [.vint 4, .vint 5] =
         .ok (.vdict [("add", .vint 9), ("multiply", .vint 20)])) := by
  constructor
  · intro c hc args
    rw [gen_parallel_char ha hb] at hc
    obtain rfl := (Option.some.inj hc).symm
    refine ⟨?_, ?_, ?_⟩
    · intro v1 v2 h1 h2
      dsimp only
      rw [h1, h2]
      rfl
    · intro e h1
      dsimp only
      rw [h1]
      rfl
    · intro v1 e h1 h2
      dsimp only
      rw [h1, h2]
      rfl
  · intro c hc
    rw [gen_parallel_char (rfl : demoRegistry.get "add" = some addCap)
      (rfl : demoRegistry.get "multiply" = some multiplyCap)] at hc
    obtain rfl := (Option.some.inj hc).symm
    rfl

/-- Witness for `parallel_composition_semantics`: the concrete parallel
composite of `add` and `multiply` evaluated at `(4, 5)`. -/
theorem parallel_composition_semantics_witness :
    addParMul.func [Value.vint 4, Value.vint 5] =
      .ok (.vdict [("add", .vint 9), ("multiply", .vint 20)]) :=
  (parallel_composition_semantics demoRegistry "add" "multiply" addCap multiplyCap
    rfl rfl).2 addParMul rfl

/-- Counterexample for C3 as stated: wrapping the always-raising capability
with the guard ('safe') modifier and invoking it yields a structured result
whose fields are named `error` and `type` — there is no `kind` field, so the
lookup of `kind` in the result returns nothing. -/
theorem safe_wrapper_has_no_kind_field :
    (generate_modifier_for boomRegistry "boom" "safe").map (fun w => w.func []) =
      some (.ok (.vdict [("error", .vstr "boom"), ("type", .vstr "RuntimeError")])) ∧
    dictGet "kind" [("error", Value.vstr "boom"), ("type", Value.vstr "RuntimeError")] =
      none :=
  ⟨rfl, rfl⟩

/-- C3 (amended): a guard ('safe')-wrapped capability never raises; when the
underlying executable raises it returns a structured result whose `error`
field holds the failure message and whose `type` field (not `kind`) holds the
failure type name; every non-failure result passes through unchanged. -/
theorem safe_wrapper_semantics (r : CapabilityRegistry) (X : String) (t : Capability)
    (ht : r.get X = some t) :
    ∀ w, generate_modifier_for r X "safe" = some w →
      ∀ args,
        (∀ e, t.func args = .error e →
           w.func args = .ok (.vdict [("error", .vstr e.msg), ("type", .vstr e.type)])) ∧
        (∀ v, t.func args = .ok v → w.func args = .ok v) ∧
        (∃ v, w.func args = .ok v) := by
  intro w hw args
  rw [gen_safe_char ht] at hw
  obtain rfl := (Option.some.inj hw).symm
  refine ⟨?_, ?_, ?_⟩
  · intro e he
    dsimp only
    rw [he]
  · intro v hv
    dsimp only
    rw [hv]
  · dsimp only
    cases h : t.func args with
    | ok v => exact ⟨v, rfl⟩
    | error e =>
        exact ⟨.vdict [("error", .vstr e.msg), ("type", .vstr e.type)], rfl⟩

/-- Witness for `safe_wrapper_semantics`: invoking the safe wrapper of the
always-raising capability returns the structured error value. -/
theorem safe_wrapper_semantics_witness :
    boomSafe.func [] =
      .ok (.vdict [("error", .vstr "boom"), ("type", .vstr "RuntimeError")]) :=
  (safe_wrapper_semantics boomRegistry "boom" boomCap rfl boomSafe rfl []).1
    { msg := "boom", type := "RuntimeError" } rfl

/-- Counterexample for C9 as stated: two calls of the memoized always-raising
capability with identical (empty) arguments both invoke the underlying
executable — nothing is cached on the raising path, so the underlying
executable runs twice, not at most once. -/
theorem memoize_raising_target_invoked_twice :
    (memoStep boomCap.func [] []).2.2 +
      (memoStep boomCap.func (memoStep boomCap.func [] []).2.1 []).2.2 = 2 ∧
    (memoStep boomCap.func [] []).1 =
      .error { msg := "boom", type := "RuntimeError" } ∧
    (memoStep boomCap.func (memoStep boomCap.func [] []).2.1 []).1 =
      .error { msg := "boom", type := "RuntimeError" } :=
  ⟨rfl, rfl, rfl⟩

/-- C9 (amended): when the first call of a memoize-wrapped capability
succeeds, a second call whose argument stringification is identical returns
the cached result without invoking the underlying executable again (one
underlying invocation across both calls, identical results); the cache is
keyed by the stringification of the full argument tuple.  (When the first
call raises, nothing is cached and the underlying executable is re-invoked —
see the counterexample.) -/
theorem memoize_caches_successful_results (target : PyFun) (a1 a2 : List Value)
    (v : Value) (hkey : strOfArgs a1 = strOfArgs a2) (hok : target a1 = .ok v) :
    memoStep target [] a1 = (.ok v, [(strOfArgs a1 ++ "\x7b\x7d", v)], 1) ∧
    memoStep target (memoStep target [] a1).2.1 a2 =
      (.ok v, [(strOfArgs a1 ++ "\x7b\x7d", v)], 0) := by
  have h1 : memoStep target [] a1 = (.ok v, [(strOfArgs a1 ++ "\x7b\x7d", v)], 1) := by
    unfold memoStep
    rw [hok]
    rfl
  refine ⟨h1, ?_⟩
  rw [h1]
  unfold memoStep
  rw [← hkey]
  simp [dictGet]

/-- Witness for `memoize_caches_successful_results`: memoized `add` called
twice on `(2, 3)` computes once and returns `5` both times. -/
theorem memoize_caches_successful_results_witness :
    memoStep addCap.func [] [Value.vint 2, Value.vint 3] =
      (.ok (.vint 5), [(strOfArgs [Value.vint 2, Value.vint 3] ++ "\x7b\x7d",
        Value.vint 5)], 1) ∧
    memoStep addCap.func
        (memoStep addCap.func [] [Value.vint 2, Value.vint 3]).2.1
        [Value.vint 2, Value.vint 3] =
      (.ok (.vint 5), [(strOfArgs [Value.vint 2, Value.vint 3] ++ "\x7b\x7d",
        Value.vint 5)], 0) :=
  memoize_caches_successful_results addCap.func
    [Value.vint 2, Value.vint 3] [Value.vint 2, Value.vint 3] (Value.vint 5) rfl rfl

theorem register_lineage_get (r : CapabilityRegistry) (c : Capability) (p : String)
    (hp : c.created_by = some p) (hp1 : p ≠ "") :
    dictGet p (register r c).lineage =
      some ((dictGet p r.lineage).getD [] ++ [c.name]) := by
  simp only [register, hp]
  rw [if_neg hp1]
  exact dictGet_dictSet_self p _ r.lineage

/-- C10: `register` appends the capability's name to its provenance key's
child list unconditionally; re-registering the same capability overwrites the
capabilities map in place (total count unchanged, lookup still finds the
capability) while the provenance child list grows by one duplicate entry per
repeated registration, ending with the name recorded at least twice. -/
theorem register_appends_lineage_unconditionally (r : CapabilityRegistry)
    (c : Capability) (p : String) (hp : c.created_by = some p) (hp1 : p ≠ "") :
    (register (register r c) c).capabilities.length =
      (register r c).capabilities.length ∧
    (register r c).get c.name = some c ∧
    (register (register r c) c).get c.name = some c ∧
    dictGet p (register r c).lineage =
      some ((dictGet p r.lineage).getD [] ++ [c.name]) ∧
    dictGet p (register (register r c) c).lineage =
      some (((dictGet p r.lineage).getD [] ++ [c.name]) ++ [c.name]) ∧
    2 ≤ ((dictGet p (register (register r c) c).lineage).getD []).count c.name := by
  have hcaps : ∀ s : CapabilityRegistry, (register s c).capabilities =
      dictSet c.name c s.capabilities := by
    intro s
    simp only [register, hp]
    rw [if_neg hp1]
  have hget1 : (register r c).get c.name = some c := by
    rw [CapabilityRegistry.get, hcaps]
    exact dictGet_dictSet_self _ _ _
  have hget2 : (register (register r c) c).get c.name = some c := by
    rw [CapabilityRegistry.get, hcaps]
    exact dictGet_dictSet_self _ _ _
  have hlin1 := register_lineage_get r c p hp hp1
  have hlin2 := register_lineage_get (register r c) c p hp hp1
  rw [hlin1] at hlin2
  refine ⟨?_, hget1, hget2, hlin1, hlin2, ?_⟩
  · rw [hcaps, hcaps r]
    refine length_dictSet_of_mem ?_ c
    rw [dictGet_dictSet_self]
    rfl
  · rw [hlin2]
    simp [List.count_append]

/-- Witness for `register_appends_lineage_unconditionally`: registering the
generated composite `addSeqIsEven` twice over `demoRegistry`. -/
theorem register_appends_lineage_unconditionally_witness :
    (register (register demoRegistry addSeqIsEven) addSeqIsEven).capabilities.length =
      (register demoRegistry addSeqIsEven).capabilities.length ∧
    (register demoRegistry addSeqIsEven).get addSeqIsEven.name = some addSeqIsEven ∧
    (register (register demoRegistry addSeqIsEven) addSeqIsEven).get addSeqIsEven.name =
      some addSeqIsEven ∧
    dictGet "compose(add, is_even)" (register demoRegistry addSeqIsEven).lineage =
      some ((dictGet "compose(add, is_even)" demoRegistry.lineage).getD [] ++
        [addSeqIsEven.name]) ∧
    dictGet "compose(add, is_even)"
        (register (register demoRegistry addSeqIsEven) addSeqIsEven).lineage =
      some (((dictGet "compose(add, is_even)" demoRegistry.lineage).getD [] ++
        [addSeqIsEven.name]) ++ [addSeqIsEven.name]) ∧
    2 ≤ ((dictGet "compose(add, is_even)"
        (register (register demoRegistry addSeqIsEven) addSeqIsEven).lineage).getD
          []).count addSeqIsEven.name :=
  register_appends_lineage_unconditionally demoRegistry addSeqIsEven
    "compose(add, is_even)" rfl (by decide)

/-- C1: `max_lineage_depth` of the empty registry is `0`; in the run that
registers one successful compose of the two cultivated capabilities and then
a second successful compose taking the first composite as an input, the
value of `max_lineage_depth` never decreases across the two registrations —
indeed it stays at `0` throughout, because the traversal treats capability
names as provenance keys and no capability name ever occurs as a lineage
key. -/
theorem max_lineage_depth_empty_and_monotone :
    max_lineage_depth {} = 0 ∧
    generate_from_composition rAB "add" "is_even" "sequence" = some addSeqIsEven ∧
    generate_from_composition (register rAB addSeqIsEven)
      "add_sequence_is_even" "add" "sequence" = some seqSeqCap ∧
    max_lineage_depth rAB ≤ max_lineage_depth (register rAB addSeqIsEven) ∧
    max_lineage_depth (register rAB addSeqIsEven) ≤
      max_lineage_depth (register (register rAB addSeqIsEven) seqSeqCap) ∧
    max_lineage_depth (register rAB addSeqIsEven) = 0 ∧
    max_lineage_depth (register (register rAB addSeqIsEven) seqSeqCap) = 0 :=
  ⟨rfl, rfl, rfl, by decide, by decide, rfl, rfl⟩

theorem occList_length (patterns : List CodePattern) (s : String) :
    (occList patterns s).length =
      (patterns.map fun p => p.functions_called.count s).sum := by
  simp [occList, List.length_flatten, List.map_map, Function.comp_def]

theorem dictGet_addCalls (s cap : String) (calls : List String) :
    ∀ acc : List (String × List String),
      dictGet s (calls.foldl
        (fun acc2 fc => dictSet fc ((dictGet fc acc2).getD [] ++ [cap]) acc2) acc) =
      if calls.count s = 0 then dictGet s acc
      else some ((dictGet s acc).getD [] ++ List.replicate (calls.count s) cap) := by
  induction calls with
  | nil => intro acc; simp
  | cons fc rest ih =>
      intro acc
      rw [List.foldl_cons, ih]
      rcases eq_or_ne fc s with h | h
      · rw [h, dictGet_dictSet_self, List.count_cons_self]
        by_cases h0 : rest.count s = 0 <;>
          simp [h0, List.replicate_succ, List.append_assoc]
      · rw [dictGet_dictSet_ne h, List.count_cons_of_ne (Ne.symm h)]

theorem dictGet_foldl_addPatternCalls (s : String) (patterns : List CodePattern) :
    ∀ acc, dictGet s (patterns.foldl addPatternCalls acc) =
      if (patterns.map fun p => p.functions_called.count s).sum = 0 then dictGet s acc
      else some ((dictGet s acc).getD [] ++ occList patterns s) := by
  induction patterns with
  | nil => intro acc; simp [occList]
  | cons p rest ih =>
      intro acc
      rw [List.foldl_cons, ih]
      unfold addPatternCalls
      rw [dictGet_addCalls]
      by_cases hc : p.functions_called.count s = 0 <;>
        by_cases hr : ((rest.map fun q => q.functions_called.count s).sum) = 0
      · simp [hc, hr, occList]
      · simp [hc, hr, occList]
      · have hocc : occList rest s = [] :=
          List.eq_nil_of_length_eq_zero (by rw [occList_length]; exact hr)
        simp [hc, hr, occList, hocc]
        intro a ha
        have hle : a.functions_called.count s ≤
            (rest.map fun q => q.functions_called.count s).sum :=
          List.le_sum_of_mem (List.mem_map_of_mem _ ha)
        omega
      · simp [hc, hr, occList, List.append_assoc]

theorem keys_dictSet {α : Type} (k : String) (v : α) (l : List (String × α)) :
    (dictSet k v l).map Prod.fst = l.map Prod.fst ∨
    (k ∉ l.map Prod.fst ∧ (dictSet k v l).map Prod.fst = l.map Prod.fst ++ [k]) := by
  induction l with
  | nil =>
      right
      exact ⟨by simp, rfl⟩
  | cons hd tl ih =>
      obtain ⟨k1, v1⟩ := hd
      by_cases h1 : k1 = k
      · left
        rw [dictSet, if_pos h1]
        simp [h1]
      · rw [dictSet, if_neg h1]
        rcases ih with h | ⟨hk, h⟩
        · left
          simp [h]
        · right
          refine ⟨?_, by simp [h]⟩
          simp only [List.map_cons, List.mem_cons]
          push_neg
          exact ⟨fun e => h1 e.symm, hk⟩

theorem nodup_keys_dictSet {α : Type} {k : String} {v : α} {l : List (String × α)}
    (h : (l.map Prod.fst).Nodup) : ((dictSet k v l).map Prod.fst).Nodup := by
  rcases keys_dictSet k v l with he | ⟨hk, he⟩
  · rw [he]
    exact h
  · rw [he, List.nodup_append]
    exact ⟨h, List.nodup_singleton k, by simpa [List.disjoint_right] using hk⟩

theorem nodup_keys_addCalls (cap : String) (calls : List String) :
    ∀ acc : List (String × List String), (acc.map Prod.fst).Nodup →
      ((calls.foldl
        (fun acc2 fc => dictSet fc ((dictGet fc acc2).getD [] ++ [cap]) acc2)
        acc).map Prod.fst).Nodup := by
  induction calls with
  | nil => intro acc h; exact h
  | cons fc rest ih => intro acc h; exact ih _ (nodup_keys_dictSet h)

theorem nodup_keys_common (patterns : List CodePattern) :
    ∀ acc, (acc.map Prod.fst).Nodup →
      ((patterns.foldl addPatternCalls acc).map Prod.fst).Nodup := by
  induction patterns with
  | nil => intro acc h; exact h
  | cons p rest ih =>
      intro acc h
      exact ih _ (nodup_keys_addCalls p.capability p.functions_called acc h)

theorem dictGet_eq_none_of_not_mem_keys {α : Type} {s : String}
    {l : List (String × α)} (h : s ∉ l.map Prod.fst) : dictGet s l = none := by
  induction l with
  | nil => rfl
  | cons hd tl ih =>
      obtain ⟨k1, v1⟩ := hd
      simp only [List.map_cons, List.mem_cons] at h
      push_neg at h
      show (if k1 = s then some v1 else dictGet s tl) = none
      rw [if_neg (fun e => h.1 e.symm)]
      exact ih h.2

theorem dictGet_filter {α : Type} (pred : String × α → Bool) (s : String) :
    ∀ l : List (String × α), (l.map Prod.fst).Nodup →
      dictGet s (l.filter pred) =
        match dictGet s l with
        | none => none
        | some v => if pred (s, v) then some v else none := by
  intro l
  induction l with
  | nil => intro _; rfl
  | cons hd tl ih =>
      intro h
      obtain ⟨k1, v1⟩ := hd
      simp only [List.map_cons, List.nodup_cons] at h
      rcases eq_or_ne k1 s with hk | hk
      · subst hk
        have hd1 : dictGet k1 ((k1, v1) :: tl) = some v1 := by
          show (if k1 = k1 then some v1 else dictGet k1 tl) = some v1
          rw [if_pos rfl]
        rw [hd1]
        cases hp : pred (k1, v1)
        · rw [List.filter_cons_of_neg (by simp [hp])]
          have hnone : dictGet k1 (tl.filter pred) = none := by
            refine dictGet_eq_none_of_not_mem_keys ?_
            intro hmem
            rcases List.mem_map.mp hmem with ⟨x, hx, hfst⟩
            exact h.1 (List.mem_map.mpr ⟨x, List.filter_subset' tl hx, hfst⟩)
          rw [hnone]
          simp [hp]
        · rw [List.filter_cons_of_pos (by simp [hp])]
          have hd2 : dictGet k1 ((k1, v1) :: tl.filter pred) = some v1 := by
            show (if k1 = k1 then some v1 else dictGet k1 (tl.filter pred)) = some v1
            rw [if_pos rfl]
          rw [hd2]
          simp [hp]
      · have hstep : dictGet s ((k1, v1) :: tl) = dictGet s tl := by
          show (if k1 = s then some v1 else dictGet s tl) = dictGet s tl
          rw [if_neg hk]
        rw [hstep]
        cases hp : pred (k1, v1)
        · rw [List.filter_cons_of_neg (by simp [hp])]
          exact ih h.2
        · rw [List.filter_cons_of_pos (by simp [hp])]
          have hskip : dictGet s ((k1, v1) :: tl.filter pred) =
              dictGet s (tl.filter pred) := by
            show (if k1 = s then some v1 else dictGet s (tl.filter pred)) = _
            rw [if_neg hk]
          rw [hskip]
          exact ih h.2

theorem dictGet_find_common_patterns (r : CapabilityRegistry) (s : String) :
    dictGet s (find_common_patterns r) =
      if 2 ≤ callOccurrences r s
      then some (occList (analyze_code_patterns (r.capabilities.map Prod.snd)) s)
      else none := by
  have hnodup : (((analyze_code_patterns (r.capabilities.map Prod.snd)).foldl
      addPatternCalls []).map Prod.fst).Nodup := nodup_keys_common _ [] (by simp)
  have hcommon := dictGet_foldl_addPatternCalls s
    (analyze_code_patterns (r.capabilities.map Prod.snd)) []
  simp only [dictGet, Option.getD_none, List.nil_append] at hcommon
  have hco : ((analyze_code_patterns (r.capabilities.map Prod.snd)).map
      fun p => p.functions_called.count s).sum = callOccurrences r s := rfl
  rw [hco] at hcommon
  unfold find_common_patterns
  rw [dictGet_filter _ s _ hnodup, hcommon]
  have hlen : (occList (analyze_code_patterns (r.capabilities.map Prod.snd)) s).length
      = callOccurrences r s := by rw [occList_length, hco]
  by_cases h0 : callOccurrences r s = 0
  · rw [if_pos h0, if_neg (by omega)]
  · rw [if_neg h0]
    by_cases h2 : 2 ≤ callOccurrences r s
    · rw [if_pos h2]
      have hgt :
          (occList (analyze_code_patterns (r.capabilities.map Prod.snd)) s).length > 1 := by
        rw [hlen]
        omega
      simp [hgt]
    · rw [if_neg h2]
      have hle :
          ¬(occList (analyze_code_patterns (r.capabilities.map Prod.snd)) s).length > 1 := by
        rw [hlen]
        omega
      simp [hle]

/-- C2 (amended): `find_common_patterns` has an entry for a symbol if and only
if the total number of call sites of that symbol across all capabilities is at
least two, and the entry lists one capability name per call site (so its
length equals the call-site count).  A single capability invoking a symbol
twice therefore also produces an entry — see the counterexample. -/
theorem find_common_patterns_occurrence_based (r : CapabilityRegistry) (s : String) :
    ((dictGet s (find_common_patterns r)).isSome ↔ 2 ≤ callOccurrences r s) ∧
    (∀ l, dictGet s (find_common_patterns r) = some l →
       l.length = callOccurrences r s) := by
  rw [dictGet_find_common_patterns]
  constructor
  · by_cases h2 : 2 ≤ callOccurrences r s <;> simp [h2]
  · intro l hl
    by_cases h2 : 2 ≤ callOccurrences r s
    · rw [if_pos h2] at hl
      obtain rfl := (Option.some.inj hl).symm
      rw [occList_length]
      rfl
    · rw [if_neg h2] at hl
      cases hl

/-- Counterexample for C2 as stated: `len` is invoked by exactly one
capability (`pair_sum`), yet `find_common_patterns` returns an entry for it —
the bucket counts call sites, not invoking capabilities, so the size-1-bucket
rule does not drop it. -/
theorem find_common_patterns_single_capability_entry :
    invokingCaps pairSumRegistry "len" = ["pair_sum"] ∧
    dictGet "len" (find_common_patterns pairSumRegistry) =
      some ["pair_sum", "pair_sum"] :=
  ⟨rfl, rfl⟩

theorem find_common_patterns_occurrence_based_witness :
    (["pair_sum", "pair_sum"] : List String).length =
      callOccurrences pairSumRegistry "len" :=
  (find_common_patterns_occurrence_based pairSumRegistry "len").2
    ["pair_sum", "pair_sum"] rfl
